import Mathlib

/-!
Verification of the Person / pydantic / ormsgpack bridge demo.

The repository wires an externally defined tree type (Person, with fields
name, age, children) into two pydantic models (MySubModel, MyModel) via a
PlainValidator / PlainSerializer pair, dumps the model to a generic value,
encodes it with ormsgpack, decodes it back and re-validates, asserting that
the reconstructed model equals the original.

The Person provider (the Rust extension module), the pydantic validation
machinery and the ormsgpack codec are external to the single Python source
file, so they are modelled here from the specification; the definitions that
come straight from src/src/python/lib.py (the wrapper models, their dump
shape and the main pipeline) are embedded directly.
-/

/-- Generic Value (spec §3): the intermediate form understood by the codec and
the schema layer — one of string, integer, boolean, null, ordered sequence,
or mapping from string keys to Generic Values. -/
inductive GValue where
  | str (s : String)
  | int (n : Int)
  | bool (b : Bool)
  | null
  | arr (xs : List GValue)
  | map (kvs : List (String × GValue))

/-- Modelled from the spec: the opaque Person tree node provided by the
external extension module — a name, a mutable integer age, and an ordered
sequence of child Persons (spec §3). Equality is structural. -/
inductive Person where
  | mk (name : String) (age : Int) (children : List Person)

def Person.name : Person → String
  | .mk n _ _ => n

def Person.age : Person → Int
  | .mk _ a _ => a

def Person.children : Person → List Person
  | .mk _ _ c => c

/-- Reassignment of the age field (`nested_person.age = 10` in main):
the Person with the same name and children and the given age. -/
def Person.setAge (p : Person) (a : Int) : Person :=
  .mk p.name a p.children

/-- Key lookup in a string-keyed mapping, first occurrence wins
(Python dict access). -/
def glookup (k : String) : List (String × GValue) → Option GValue
  | [] => none
  | (k', v) :: rest => if k' = k then some v else glookup k rest

theorem glookup_sizeOf {k : String} {kvs : List (String × GValue)} {v : GValue}
    (h : glookup k kvs = some v) : sizeOf v < sizeOf kvs := by
  induction kvs with
  | nil => simp [glookup] at h
  | cons hd tl ih =>
    obtain ⟨k', v'⟩ := hd
    simp only [glookup] at h
    split at h
    · cases h
      simp only [List.cons.sizeOf_spec, Prod.mk.sizeOf_spec]
      omega
    · have := ih h
      simp only [List.cons.sizeOf_spec]
      omega

mutual
/-- Modelled from the spec: the bridge serializer installed as
PlainSerializer (the Person to generic-mapping direction, spec §4.2) —
emits a mapping with keys name, age, children, where children is the
ordered sequence of the recursively serialized child nodes. -/
def to_generic : Person → GValue
  | .mk n a c =>
    .map [("name", .str n), ("age", .int a), ("children", .arr (to_generic_list c))]

/-- Serialization of a list of Persons, one node at a time. -/
def to_generic_list : List Person → List GValue
  | [] => []
  | p :: ps => to_generic p :: to_generic_list ps
end

mutual
/-- Modelled from the spec: the bridge validator Person.validate on a
generic value (spec §4.2) — fails when the input is not a mapping, when a
required key (name, age, children) is absent or of the wrong base type, or
when some entry of children is itself invalid; on success reconstructs the
tree bottom-up. The error payload is the validation message. -/
def from_generic : GValue → Except String Person
  | .map kvs =>
    match glookup "name" kvs with
    | some (.str n) =>
      match glookup "age" kvs with
      | some (.int a) =>
        match _hc : glookup "children" kvs with
        | some (.arr cs) =>
          match from_generic_list cs with
          | .ok kids => .ok (.mk n a kids)
          | .error e => .error e
        | _ => .error "children missing or not a sequence"
      | _ => .error "age missing or not an integer"
    | _ => .error "name missing or not a string"
  | _ => .error "not a mapping"
termination_by v => sizeOf v
decreasing_by
  have h1 := glookup_sizeOf _hc
  simp only [GValue.arr.sizeOf_spec] at h1
  simp only [GValue.map.sizeOf_spec]
  omega

/-- Validation of a sequence of children: every entry must validate; the
first failing entry's error is returned. -/
def from_generic_list : List GValue → Except String (List Person)
  | [] => .ok []
  | v :: vs =>
    match from_generic v with
    | .ok p =>
      match from_generic_list vs with
      | .ok ps => .ok (p :: ps)
      | .error e => .error e
    | .error e => .error e
termination_by l => sizeOf l
decreasing_by
  · simp only [List.cons.sizeOf_spec]; omega
  · simp only [List.cons.sizeOf_spec]; omega
end

/-- A Python value reaching the installed field validator: either a generic
value (after decoding) or an already-constructed Person instance (when the
model is built directly from a Person, as in main). -/
inductive PyObj where
  | gv (v : GValue)
  | obj (p : Person)

/-- Modelled from the spec: Person.validate as installed by PlainValidator.
An already-constructed Person is accepted unchanged (main builds
MySubModel(person=nested_person) from a live Person); a generic value is
reconstructed through from_generic. -/
def Person.validate : PyObj → Except String Person
  | .obj p => .ok p
  | .gv v => from_generic v

/-- The inner pydantic model of lib.py: a single Person-typed field. -/
structure MySubModel where
  person : Person

/-- The outer pydantic model of lib.py: a single MySubModel-typed field. -/
structure MyModel where
  sub : MySubModel

/-- Dump of the inner model: a mapping with the single key person holding
the bridge-serialized Person (pydantic model_dump with the installed
PlainSerializer). -/
def MySubModel.model_dump (m : MySubModel) : GValue :=
  .map [("person", to_generic m.person)]

/-- Dump of the outer model: a mapping with the single key sub holding the
inner model's dump. -/
def MyModel.model_dump (m : MyModel) : GValue :=
  .map [("sub", m.sub.model_dump)]

/-- Construction of MySubModel from a keyword value (pydantic runs the
installed validator on the supplied value). -/
def MySubModel.create (v : PyObj) : Except String MySubModel :=
  (Person.validate v).map MySubModel.mk

/-- Validation of the inner model from a generic value: the input must be a
mapping with a person key whose value passes the installed validator. -/
def MySubModel.validate (v : GValue) : Except String MySubModel :=
  match v with
  | .map kvs =>
    match glookup "person" kvs with
    | some pv => (Person.validate (.gv pv)).map MySubModel.mk
    | none => .error "field person missing"
  | _ => .error "sub is not a mapping"

/-- Validation of the outer model from a generic value
(MyModel(**unpacked) in main): the input must be a mapping with a sub key
whose value validates as MySubModel. -/
def MyModel.validate (v : GValue) : Except String MyModel :=
  match v with
  | .map kvs =>
    match glookup "sub" kvs with
    | some sv => (MySubModel.validate sv).map MyModel.mk
    | none => .error "field sub missing"
  | _ => .error "not a mapping"

/-- Modelled from the spec: the external tree generator
create_nested_person(depth, max_children) (spec §4.1). The randomness
source is the function rand applied to a running counter; at depth 0 the
node is a leaf, otherwise the child count is drawn in [0, max_children]
and the children are generated recursively at depth - 1. Name and age are
generated per node from the counter and the randomness source. -/
def create_nested_person (rand : Nat → Nat) : Nat → Nat → Nat → Person × Nat
  | 0, _, ctr => (.mk ("p" ++ toString ctr) (rand ctr) [], ctr + 1)
  | d + 1, mc, ctr =>
    let cnt := rand ctr % (mc + 1)
    let res := (List.range cnt).foldl
      (fun acc _ =>
        let (p, c) := create_nested_person rand d mc acc.2
        (acc.1 ++ [p], c))
      (([] : List Person), ctr + 1)
    (.mk ("p" ++ toString ctr) (rand ctr) res.1, res.2)

/-- Base-128 digits of a natural number, least significant first, with a
continuation bit on every digit but the last; the first argument is fuel,
always called with fuel at least the number itself. Every emitted byte is
below 256. -/
def natEncAux : Nat → Nat → List Nat
  | 0, n => [n % 128]
  | f + 1, n => if n < 128 then [n] else (n % 128 + 128) :: natEncAux f (n / 128)

/-- Byte encoding of an unbounded natural number (variable-length,
base 128 with continuation bits). -/
def natEnc (n : Nat) : List Nat :=
  natEncAux n n

/-- Decoder for natEnc: reads digits until one without the continuation
bit, returning the number and the unconsumed tail. -/
def natDec : List Nat → Option (Nat × List Nat)
  | [] => none
  | b :: bs =>
    if b < 128 then some (b, bs)
    else
      match natDec bs with
      | some (m, rest) => some (m * 128 + (b - 128), rest)
      | none => none

/-- Zigzag byte encoding of an integer: non-negative i maps to 2i,
negative i to -2i - 1, then natEnc. -/
def intEnc (i : Int) : List Nat :=
  natEnc (if 0 ≤ i then (2 * i).toNat else (-2 * i - 1).toNat)

/-- Decoder for intEnc. -/
def intDec (bs : List Nat) : Option (Int × List Nat) :=
  match natDec bs with
  | some (k, rest) =>
    some (if k % 2 = 0 then ((k / 2 : Nat) : Int) else -(((k + 1) / 2 : Nat) : Int), rest)
  | none => none

/-- Byte encoding of a list of characters: each codepoint as natEnc. -/
def charsEnc : List Char → List Nat
  | [] => []
  | c :: cs => natEnc c.toNat ++ charsEnc cs

/-- Decoder for a run of exactly n characters. -/
def charsDec : Nat → List Nat → Option (List Char × List Nat)
  | 0, bs => some ([], bs)
  | n + 1, bs =>
    match natDec bs with
    | some (k, rest) =>
      match charsDec n rest with
      | some (cs, rest') => some (Char.ofNat k :: cs, rest')
      | none => none
    | none => none

/-- Byte encoding of a string: character count, then the characters. -/
def strEnc (s : String) : List Nat :=
  natEnc s.toList.length ++ charsEnc s.toList

/-- Decoder for strEnc. -/
def strDec (bs : List Nat) : Option (String × List Nat) :=
  match natDec bs with
  | some (n, rest) =>
    match charsDec n rest with
    | some (cs, rest') => some (String.mk cs, rest')
    | none => none
  | none => none

mutual
/-- Modelled from the spec: the binary codec encoder (ormsgpack.packb over
the Generic Value vocabulary, spec §4.4) — a tagged byte encoding of the
five Generic Value kinds; the exact byte layout is delegated by the spec to
the library and only the round-trip law is contractual. -/
def encGV : GValue → List Nat
  | .null => [0]
  | .bool false => [1]
  | .bool true => [2]
  | .int i => 3 :: intEnc i
  | .str s => 4 :: strEnc s
  | .arr xs => 5 :: (natEnc xs.length ++ encGVList xs)
  | .map kvs => 6 :: (natEnc kvs.length ++ encKVList kvs)

/-- Concatenated encodings of the elements of a sequence. -/
def encGVList : List GValue → List Nat
  | [] => []
  | v :: vs => encGV v ++ encGVList vs

/-- Concatenated encodings of the entries of a mapping, key then value. -/
def encKVList : List (String × GValue) → List Nat
  | [] => []
  | (k, v) :: kvs => strEnc k ++ (encGV v ++ encKVList kvs)
end

/-- Decoder for a run of exactly n values, given a decoder for one value. -/
def decGVList (dec1 : List Nat → Option (GValue × List Nat)) :
    Nat → List Nat → Option (List GValue × List Nat)
  | 0, bs => some ([], bs)
  | n + 1, bs =>
    match dec1 bs with
    | some (v, r) =>
      match decGVList dec1 n r with
      | some (vs, r') => some (v :: vs, r')
      | none => none
    | none => none

/-- Decoder for a run of exactly n key-value entries, given a decoder for
one value. -/
def decKVList (dec1 : List Nat → Option (GValue × List Nat)) :
    Nat → List Nat → Option (List (String × GValue) × List Nat)
  | 0, bs => some ([], bs)
  | n + 1, bs =>
    match strDec bs with
    | some (k, r) =>
      match dec1 r with
      | some (v, r') =>
        match decKVList dec1 n r' with
        | some (kvs, r'') => some ((k, v) :: kvs, r'')
        | none => none
      | none => none
    | none => none

/-- Fuel-indexed decoder for one Generic Value off the front of a byte
string, returning the value and the unconsumed tail; fuel bounds the
nesting depth and one unit is spent per sequence or mapping level. -/
def decGV : Nat → List Nat → Option (GValue × List Nat)
  | 0, _ => none
  | f + 1, bs =>
    match bs with
    | 0 :: r => some (.null, r)
    | 1 :: r => some (.bool false, r)
    | 2 :: r => some (.bool true, r)
    | 3 :: r =>
      match intDec r with
      | some (i, r') => some (.int i, r')
      | none => none
    | 4 :: r =>
      match strDec r with
      | some (s, r') => some (.str s, r')
      | none => none
    | 5 :: r =>
      match natDec r with
      | some (n, r') =>
        match decGVList (decGV f) n r' with
        | some (xs, r'') => some (.arr xs, r'')
        | none => none
      | none => none
    | 6 :: r =>
      match natDec r with
      | some (n, r') =>
        match decKVList (decGV f) n r' with
        | some (kvs, r'') => some (.map kvs, r'')
        | none => none
      | none => none
    | _ => none

namespace ormsgpack

/-- Modelled from the spec: ormsgpack.packb — serialize a generic value to
a byte sequence. -/
def packb (v : GValue) : List Nat :=
  encGV v

/-- Modelled from the spec: ormsgpack.unpackb — decode a byte sequence
back to a generic value, failing on malformed or trailing input. The fuel
handed to the depth-indexed decoder exceeds any nesting depth a byte
string of this length can hold. -/
def unpackb (bs : List Nat) : Option GValue :=
  match decGV (bs.length + 1) bs with
  | some (v, []) => some v
  | _ => none

end ormsgpack

/-- Structural induction for Person with the membership form of the
induction hypothesis on children. -/
theorem Person.childrenInd (P : Person → Prop)
    (h : ∀ n a c, (∀ x ∈ c, P x) → P (.mk n a c)) : ∀ p, P p := by
  intro p
  refine @Person.rec P (fun l => ∀ x ∈ l, P x) (fun n a c ih => h n a c ih) ?_ ?_ p
  · intro x hx; cases hx
  · intro hd tl hhd htl x hx
    cases hx with
    | head => exact hhd
    | tail _ h2 => exact htl x h2

/-- Structural induction for GValue with the membership form of the
induction hypotheses on sequence elements and mapping values. -/
theorem GValue.nestedInd (P : GValue → Prop)
    (hstr : ∀ s, P (.str s)) (hint : ∀ n, P (.int n)) (hbool : ∀ b, P (.bool b))
    (hnull : P .null)
    (harr : ∀ xs, (∀ x ∈ xs, P x) → P (.arr xs))
    (hmap : ∀ kvs, (∀ kv ∈ kvs, P kv.2) → P (.map kvs)) :
    ∀ v, P v := by
  intro v
  refine @GValue.rec P (fun xs => ∀ x ∈ xs, P x)
      (fun kvs => ∀ kv ∈ kvs, P kv.2) (fun kv => P kv.2)
      hstr hint hbool hnull harr hmap ?_ ?_ ?_ ?_ ?_ v
  · intro x hx; cases hx
  · intro hd tl hhd htl x hx
    cases hx with
    | head => exact hhd
    | tail _ h2 => exact htl x h2
  · intro kv hkv; cases hkv
  · intro hd tl hhd htl kv hkv
    cases hkv with
    | head => exact hhd
    | tail _ h2 => exact htl kv h2
  · intro k v ih; exact ih

/-- Serializing a list of Persons is mapping the serializer over it. -/
theorem to_generic_list_eq_map (l : List Person) :
    to_generic_list l = l.map to_generic := by
  induction l with
  | nil => rfl
  | cons hd tl ih => simp [to_generic_list, ih]

/-- Validating the serialization of a list of Persons, given that each
element round-trips, recovers the list. -/
theorem from_generic_list_to_generic_list (c : List Person)
    (ih : ∀ x ∈ c, from_generic (to_generic x) = .ok x) :
    from_generic_list (to_generic_list c) = .ok c := by
  induction c with
  | nil => simp [from_generic_list, to_generic_list]
  | cons hd tl iht =>
    simp only [to_generic_list]
    rw [from_generic_list]
    rw [ih hd (by simp)]
    rw [iht (fun x hx => ih x (List.mem_cons_of_mem _ hx))]

/-- Bridge round-trip (spec §4.2): validating the serialized form of any
Person recovers the Person. -/
theorem from_generic_to_generic (p : Person) :
    from_generic (to_generic p) = .ok p := by
  induction p using Person.childrenInd with
  | h n a c ih =>
    have hlist := from_generic_list_to_generic_list c ih
    rw [to_generic, from_generic]
    simp only [glookup]
    simp [hlist]

/-- Decoding the fuel-indexed digit encoding recovers the number and the
tail whenever the fuel covers the number. -/
theorem natDec_natEncAux : ∀ f n rest, n ≤ f →
    natDec (natEncAux f n ++ rest) = some (n, rest) := by
  intro f
  induction f with
  | zero =>
    intro n rest hn
    have h0 : n = 0 := Nat.le_zero.mp hn
    subst h0
    simp [natEncAux, natDec]
  | succ f ih =>
    intro n rest hn
    rw [natEncAux]
    by_cases h : n < 128
    · simp [h, natDec]
    · have hb : ¬ (n % 128 + 128 < 128) := by omega
      have hrec : n / 128 ≤ f := by
        have := Nat.div_lt_self (by omega : 0 < n) (by omega : 1 < 128)
        omega
      simp only [if_neg h, List.cons_append, natDec, if_neg hb, ih (n / 128) rest hrec]
      have : n / 128 * 128 + (n % 128 + 128 - 128) = n := by omega
      rw [this]

/-- Decoding the digit encoding of a natural number recovers it and the
tail. -/
theorem natDec_natEnc (n : Nat) (rest : List Nat) :
    natDec (natEnc n ++ rest) = some (n, rest) :=
  natDec_natEncAux n n rest (Nat.le_refl n)

/-- Decoding the zigzag encoding of an integer recovers it and the tail. -/
theorem intDec_intEnc (i : Int) (rest : List Nat) :
    intDec (intEnc i ++ rest) = some (i, rest) := by
  cases i with
  | ofNat m =>
    have h1 : (0 : Int) ≤ Int.ofNat m := Int.ofNat_nonneg m
    have h2 : (2 * Int.ofNat m).toNat = 2 * m := by
      rw [show (2 : Int) * Int.ofNat m = Int.ofNat (2 * m) from (Int.ofNat_mul 2 m).symm]
      exact Int.toNat_ofNat _
    simp only [intEnc, if_pos h1, h2, intDec, natDec_natEnc]
    have h3 : 2 * m % 2 = 0 := by omega
    have h4 : 2 * m / 2 = m := by omega
    simp [h3, h4]
  | negSucc m =>
    have h1 : ¬ ((0 : Int) ≤ Int.negSucc m) := by
      simp [Int.negSucc_eq]
      omega
    have h2 : (-2 * Int.negSucc m - 1).toNat = 2 * m + 1 := by
      simp [Int.negSucc_eq]
      omega
    simp only [intEnc, if_neg h1, h2, intDec, natDec_natEnc]
    have h3 : ¬ ((2 * m + 1) % 2 = 0) := by omega
    have h4 : (2 * m + 1 + 1) / 2 = m + 1 := by omega
    simp only [if_neg h3, h4]
    rw [Int.negSucc_eq]
    norm_num

/-- Decoding a run of characters, counted by the list length, recovers the
characters and the tail. -/
theorem charsDec_charsEnc (cs : List Char) (rest : List Nat) :
    charsDec cs.length (charsEnc cs ++ rest) = some (cs, rest) := by
  induction cs with
  | nil => simp [charsEnc, charsDec]
  | cons c cs ih =>
    simp only [charsEnc, List.length_cons, charsDec, List.append_assoc,
      natDec_natEnc, ih, Char.ofNat_toNat]

/-- Decoding the encoding of a string recovers it and the tail. -/
theorem strDec_strEnc (s : String) (rest : List Nat) :
    strDec (strEnc s ++ rest) = some (s, rest) := by
  simp only [strEnc, strDec, List.append_assoc, natDec_natEnc, charsDec_charsEnc]
  cases s
  rfl

mutual
/-- Nesting depth of a Generic Value: one per sequence or mapping level;
the fuel the decoder needs. -/
def gdepth : GValue → Nat
  | .arr xs => gdepthList xs + 1
  | .map kvs => gdepthKV kvs + 1
  | _ => 1

/-- Largest nesting depth among the elements of a sequence. -/
def gdepthList : List GValue → Nat
  | [] => 0
  | v :: vs => max (gdepth v) (gdepthList vs)

/-- Largest nesting depth among the values of a mapping. -/
def gdepthKV : List (String × GValue) → Nat
  | [] => 0
  | (_, v) :: kvs => max (gdepth v) (gdepthKV kvs)
end

theorem gdepth_le_gdepthList {x : GValue} {xs : List GValue} (hx : x ∈ xs) :
    gdepth x ≤ gdepthList xs := by
  induction xs with
  | nil => cases hx
  | cons hd tl ih =>
    rw [gdepthList]
    cases hx with
    | head => exact Nat.le_max_left _ _
    | tail _ h2 => exact Nat.le_trans (ih h2) (Nat.le_max_right _ _)

theorem gdepth_le_gdepthKV {kv : String × GValue} {kvs : List (String × GValue)}
    (hkv : kv ∈ kvs) : gdepth kv.2 ≤ gdepthKV kvs := by
  induction kvs with
  | nil => cases hkv
  | cons hd tl ih =>
    obtain ⟨k, v⟩ := hd
    rw [gdepthKV]
    cases hkv with
    | head => exact Nat.le_max_left _ _
    | tail _ h2 => exact Nat.le_trans (ih h2) (Nat.le_max_right _ _)

theorem gdepth_pos (v : GValue) : 1 ≤ gdepth v := by
  cases v <;> simp [gdepth]

/-- Decoding a run of values off the concatenated element encodings
recovers the list, given a one-value decoder correct on every element. -/
theorem decGVList_enc (dec1 : List Nat → Option (GValue × List Nat))
    (xs : List GValue) (rest : List Nat)
    (h : ∀ x ∈ xs, ∀ r, dec1 (encGV x ++ r) = some (x, r)) :
    decGVList dec1 xs.length (encGVList xs ++ rest) = some (xs, rest) := by
  induction xs with
  | nil => simp [encGVList, decGVList]
  | cons hd tl ih =>
    have h1 : ∀ r, dec1 (encGV hd ++ r) = some (hd, r) := h hd (by simp)
    have h2 := ih (fun x hx r => h x (List.mem_cons_of_mem _ hx) r)
    simp only [encGVList, List.length_cons, decGVList, List.append_assoc, h1, h2]

/-- Decoding a run of key-value entries off the concatenated entry
encodings recovers the mapping, given a one-value decoder correct on every
entry value. -/
theorem decKVList_enc (dec1 : List Nat → Option (GValue × List Nat))
    (kvs : List (String × GValue)) (rest : List Nat)
    (h : ∀ kv ∈ kvs, ∀ r, dec1 (encGV kv.2 ++ r) = some (kv.2, r)) :
    decKVList dec1 kvs.length (encKVList kvs ++ rest) = some (kvs, rest) := by
  induction kvs with
  | nil => simp [encKVList, decKVList]
  | cons hd tl ih =>
    obtain ⟨k, v⟩ := hd
    have h1 : ∀ r, dec1 (encGV v ++ r) = some (v, r) := fun r => h (k, v) (by simp) r
    have h2 := ih (fun kv hkv r => h kv (List.mem_cons_of_mem _ hkv) r)
    simp only [encKVList, List.length_cons, decKVList, List.append_assoc, strDec_strEnc,
      h1, h2]

/-- Codec round-trip, fuel-indexed form: with fuel at least the nesting
depth, decoding the encoding of a value returns the value and the tail. -/
theorem decGV_encGV (v : GValue) : ∀ f rest, gdepth v ≤ f →
    decGV f (encGV v ++ rest) = some (v, rest) := by
  induction v using GValue.nestedInd with
  | hstr s =>
    intro f rest hf
    obtain ⟨f', rfl⟩ : ∃ f', f = f' + 1 :=
      ⟨f - 1, by have := gdepth_pos (GValue.str s); omega⟩
    simp [encGV, decGV, strDec_strEnc]
  | hint n =>
    intro f rest hf
    obtain ⟨f', rfl⟩ : ∃ f', f = f' + 1 :=
      ⟨f - 1, by have := gdepth_pos (GValue.int n); omega⟩
    simp [encGV, decGV, intDec_intEnc]
  | hbool b =>
    intro f rest hf
    obtain ⟨f', rfl⟩ : ∃ f', f = f' + 1 :=
      ⟨f - 1, by have := gdepth_pos (GValue.bool b); omega⟩
    cases b <;> simp [encGV, decGV]
  | hnull =>
    intro f rest hf
    obtain ⟨f', rfl⟩ : ∃ f', f = f' + 1 :=
      ⟨f - 1, by have := gdepth_pos GValue.null; omega⟩
    simp [encGV, decGV]
  | harr xs ih =>
    intro f rest hf
    rw [gdepth] at hf
    obtain ⟨f', rfl⟩ : ∃ f', f = f' + 1 := ⟨f - 1, by omega⟩
    have hf' : gdepthList xs ≤ f' := by omega
    have h2 := decGVList_enc (decGV f') xs rest
      (fun x hx r => ih x hx f' r (Nat.le_trans (gdepth_le_gdepthList hx) hf'))
    simp only [encGV, List.cons_append, decGV, List.append_assoc, natDec_natEnc, h2]
  | hmap kvs ih =>
    intro f rest hf
    rw [gdepth] at hf
    obtain ⟨f', rfl⟩ : ∃ f', f = f' + 1 := ⟨f - 1, by omega⟩
    have hf' : gdepthKV kvs ≤ f' := by omega
    have h2 := decKVList_enc (decGV f') kvs rest
      (fun kv hkv r => ih kv hkv f' r (Nat.le_trans (gdepth_le_gdepthKV hkv) hf'))
    simp only [encGV, List.cons_append, decGV, List.append_assoc, natDec_natEnc, h2]

theorem length_encGV_mem_le {x : GValue} {xs : List GValue} (hx : x ∈ xs) :
    (encGV x).length ≤ (encGVList xs).length := by
  induction xs with
  | nil => cases hx
  | cons hd tl ih =>
    rw [encGVList, List.length_append]
    cases hx with
    | head => omega
    | tail _ h2 => have := ih h2; omega

theorem length_encGV_memKV_le {kv : String × GValue} {kvs : List (String × GValue)}
    (hkv : kv ∈ kvs) : (encGV kv.2).length ≤ (encKVList kvs).length := by
  induction kvs with
  | nil => cases hkv
  | cons hd tl ih =>
    obtain ⟨k, v⟩ := hd
    rw [encKVList, List.length_append, List.length_append]
    cases hkv with
    | head =>
      show (encGV v).length ≤ (strEnc k).length + ((encGV v).length + (encKVList tl).length)
      omega
    | tail _ h2 => have := ih h2; omega

/-- The nesting depth of a value never exceeds the length of its encoding:
every nesting level contributes at least its tag byte. -/
theorem gdepth_le_length_encGV (v : GValue) : gdepth v ≤ (encGV v).length := by
  induction v using GValue.nestedInd with
  | hstr s => simp [gdepth, encGV]
  | hint n => simp [gdepth, encGV]
  | hbool b => cases b <;> simp [gdepth, encGV]
  | hnull => simp [gdepth, encGV]
  | harr xs ih =>
    rw [gdepth, encGV]
    have hlist : gdepthList xs ≤ (encGVList xs).length := by
      induction xs with
      | nil => simp [gdepthList]
      | cons hd tl iht =>
        rw [gdepthList]
        have h1 : gdepth hd ≤ (encGV hd).length := ih hd (by simp)
        have h2 : gdepthList tl ≤ (encGVList tl).length :=
          iht (fun x hx => ih x (List.mem_cons_of_mem _ hx))
        rw [encGVList, List.length_append]
        omega
    simp only [List.length_cons, List.length_append]
    omega
  | hmap kvs ih =>
    rw [gdepth, encGV]
    have hlist : gdepthKV kvs ≤ (encKVList kvs).length := by
      induction kvs with
      | nil => simp [gdepthKV]
      | cons hd tl iht =>
        obtain ⟨k, v⟩ := hd
        rw [gdepthKV]
        have h1 : gdepth v ≤ (encGV v).length := ih (k, v) (by simp)
        have h2 : gdepthKV tl ≤ (encKVList tl).length :=
          iht (fun kv hkv => ih kv (List.mem_cons_of_mem _ hkv))
        rw [encKVList, List.length_append, List.length_append]
        omega
    simp only [List.length_cons, List.length_append]
    omega

/-- Codec round-trip (spec §4.4): decoding the encoding of any Generic
Value recovers it exactly. -/
theorem unpackb_packb (v : GValue) :
    ormsgpack.unpackb (ormsgpack.packb v) = some v := by
  rw [ormsgpack.unpackb, ormsgpack.packb]
  have h1 : gdepth v ≤ (encGV v).length + 1 :=
    Nat.le_trans (gdepth_le_length_encGV v) (Nat.le_succ _)
  have h2 := decGV_encGV v ((encGV v).length + 1) [] h1
  rw [List.append_nil] at h2
  rw [h2]

/-- Validating the dump of a wrapped model recovers the model: the schema
layer composes the bridge round-trip through both wrapper records. -/
theorem validate_model_dump (m : MyModel) :
    MyModel.validate m.model_dump = .ok m := by
  obtain ⟨⟨p⟩⟩ := m
  simp [MyModel.validate, MyModel.model_dump, MySubModel.model_dump, MySubModel.validate,
    glookup, Person.validate, from_generic_to_generic, Except.map]

/-- No key occurs twice: each key is absent from the remaining entries. -/
def nodupKeys : List (String × GValue) → Bool
  | [] => true
  | (k, _) :: rest => !((rest.map Prod.fst).contains k) && nodupKeys rest

mutual
/-- Well-formedness of a Generic Value (spec §3): every mapping anywhere in
the value has pairwise distinct string keys. -/
def wfGV : GValue → Bool
  | .arr xs => wfGVList xs
  | .map kvs => nodupKeys kvs && wfKVList kvs
  | _ => true

/-- Well-formedness of every element of a sequence. -/
def wfGVList : List GValue → Bool
  | [] => true
  | v :: vs => wfGV v && wfGVList vs

/-- Well-formedness of every value of a mapping. -/
def wfKVList : List (String × GValue) → Bool
  | [] => true
  | (_, v) :: kvs => wfGV v && wfKVList kvs
end

mutual
/-- Number of nodes of a Person tree. -/
def nodeCount : Person → Nat
  | .mk _ _ c => 1 + nodeCountList c

/-- Total number of nodes of a list of Person trees. -/
def nodeCountList : List Person → Nat
  | [] => 0
  | p :: ps => nodeCount p + nodeCountList ps
end

/-- Geometric bound on the node count of a tree of the given depth and
branching: geomSum mc d = 1 + mc + mc^2 + ... + mc^d. -/
def geomSum (mc : Nat) : Nat → Nat
  | 0 => 1
  | d + 1 => 1 + mc * geomSum mc d

theorem nodeCountList_append (a b : List Person) :
    nodeCountList (a ++ b) = nodeCountList a + nodeCountList b := by
  induction a with
  | nil => simp [nodeCountList]
  | cons hd tl ih => simp [nodeCountList, ih]; omega

/-- The children-generating fold of the generator adds at most B nodes per
round, when each recursive call is bounded by B. -/
theorem foldl_nodeCount (rand : Nat → Nat) (d mc B : Nat)
    (hB : ∀ c, nodeCount (create_nested_person rand d mc c).1 ≤ B) :
    ∀ (l : List Nat) (acc : List Person × Nat),
    nodeCountList ((l.foldl (fun acc _ =>
        let (p, c) := create_nested_person rand d mc acc.2
        (acc.1 ++ [p], c)) acc).1) ≤ nodeCountList acc.1 + l.length * B := by
  intro l
  induction l with
  | nil => intro acc; simp
  | cons hd tl ih =>
    intro acc
    rw [List.foldl_cons]
    refine Nat.le_trans (ih _) ?_
    rcases hpc : create_nested_person rand d mc acc.2 with ⟨p, c⟩
    have hp : nodeCount p ≤ B := by
      have := hB acc.2
      rw [hpc] at this
      exact this
    simp only [hpc, nodeCountList_append, nodeCountList, List.length_cons]
    have : (tl.length + 1) * B = tl.length * B + B := by ring
    omega

/-- Node-count bound for the generator (spec §4.1 / §8): a tree of depth d
with branching bound mc has at most 1 + mc + ... + mc^d nodes. -/
theorem nodeCount_create_le (rand : Nat → Nat) :
    ∀ d mc ctr, nodeCount (create_nested_person rand d mc ctr).1 ≤ geomSum mc d := by
  intro d
  induction d with
  | zero =>
    intro mc ctr
    simp [create_nested_person, nodeCount, nodeCountList, geomSum]
  | succ d ih =>
    intro mc ctr
    rw [create_nested_person]
    simp only [nodeCount, geomSum]
    have hfold := foldl_nodeCount rand d mc (geomSum mc d) (fun c => ih mc c)
      (List.range (rand ctr % (mc + 1))) ([], ctr + 1)
    rw [List.length_range] at hfold
    simp only [nodeCountList, Nat.zero_add] at hfold
    have hcnt : rand ctr % (mc + 1) ≤ mc := by
      have := @Nat.mod_lt (rand ctr) (mc + 1) (by omega)
      omega
    have hmul : (rand ctr % (mc + 1)) * geomSum mc d ≤ mc * geomSum mc d :=
      Nat.mul_le_mul_right _ hcnt
    omega

/-- Python subscript access d[k] on a generic mapping. -/
def getKey (d : GValue) (k : String) : Option GValue :=
  match d with
  | .map kvs => glookup k kvs
  | _ => none

/-- Python subscript access d[i] on a generic sequence. -/
def getIdx (d : GValue) (i : Nat) : Option GValue :=
  match d with
  | .arr xs => xs.get? i
  | _ => none

/-- The access dump["sub"]["person"]["children"][0] performed by main. -/
def dumpFirstChild (d : GValue) : Option GValue :=
  (((getKey d "sub").bind (fun s => getKey s "person")).bind
      (fun p => getKey p "children")).bind (fun c => getIdx c 0)

/-- Elements of a serialized child list line up with the original children:
the head exists on one side exactly when it exists on the other. -/
theorem to_generic_list_get0_isSome (c : List Person) :
    ((to_generic_list c).get? 0).isSome = ((c.get? 0).isSome) := by
  cases c <;> rfl

/-- C1: Bridge round-trip — for every Person tree p (in particular every
tree produced by the generator), applying the installed validator to the
installed serializer's output reconstructs a structurally equal Person, at
any nesting depth. -/
theorem claim_C1 (p : Person) :
    Person.validate (.gv (to_generic p)) = .ok p :=
  from_generic_to_generic p

/-- C2: Composed round-trip — validating the decoded encoding of the dump
of any Outer record reproduces the original record. -/
theorem claim_C2 (m : MyModel) :
    Option.map MyModel.validate (ormsgpack.unpackb (ormsgpack.packb m.model_dump))
      = some (.ok m) := by
  rw [unpackb_packb]
  simp [validate_model_dump]

/-- C3: Codec round-trip — for every well-formed Generic Value, decoding
its encoding recovers it; only the decode round-trip is claimed, not byte
canonicality. -/
theorem claim_C3 (v : GValue) (h : wfGV v = true) :
    ormsgpack.unpackb (ormsgpack.packb v) = some v :=
  unpackb_packb v

/-- Witness for C3 at a concrete well-formed value exercising all five
Generic Value kinds. -/
theorem claim_C3_witness :
    wfGV (.map [("a", .arr [.str "hi", .int (-7), .bool true, .null]),
      ("b", .map [("x", .int 300)])]) = true ∧
    ormsgpack.unpackb (ormsgpack.packb
      (.map [("a", .arr [.str "hi", .int (-7), .bool true, .null]),
        ("b", .map [("x", .int 300)])]))
      = some (.map [("a", .arr [.str "hi", .int (-7), .bool true, .null]),
        ("b", .map [("x", .int 300)])]) :=
  ⟨rfl, claim_C3 _ rfl⟩

/-- C5: Serializer output shape — the bridge serializer emits exactly the
mapping with keys name, age, children, the last being the ordered sequence
of recursively serialized children; the output is pure data built only
from the node's fields. -/
theorem claim_C5 (p : Person) :
    to_generic p = .map [("name", .str p.name), ("age", .int p.age),
      ("children", .arr (p.children.map to_generic))] := by
  cases p with
  | mk n a c =>
    rw [to_generic]
    simp [Person.name, Person.age, Person.children, to_generic_list_eq_map]

/-- C6: Dump shape — model_dump of the outer record is the two-level
nested mapping whose single field sub holds a mapping whose person field
is the bridge-serialized Person. -/
theorem claim_C6 (m : MyModel) :
    m.model_dump = .map [("sub", .map [("person", to_generic m.sub.person)])] :=
  rfl

/-- C8: Leaf base case — the generator at depth 0 returns a Person with no
children, for every branching bound and every randomness source. -/
theorem claim_C8 (rand : Nat → Nat) (K ctr : Nat) :
    (create_nested_person rand 0 K ctr).1.children = [] :=
  rfl

/-- C9: The installed validator accepts an already-constructed Person:
building MySubModel from a live Person succeeds and preserves the Person
exactly. -/
theorem claim_C9 (p : Person) :
    MySubModel.create (.obj p) = .ok (MySubModel.mk p) :=
  rfl

/-- Test for the mapping kind. -/
def isMapping : GValue → Bool
  | .map _ => true
  | _ => false

/-- Test for the string kind. -/
def isStr : GValue → Bool
  | .str _ => true
  | _ => false

/-- Test for the integer kind. -/
def isInt : GValue → Bool
  | .int _ => true
  | _ => false

/-- Test for the sequence kind. -/
def isSeq : GValue → Bool
  | .arr _ => true
  | _ => false

/-- Test for the scalar kinds: string, integer, boolean or null. -/
def isScalar : GValue → Bool
  | .str _ => true
  | .int _ => true
  | .bool _ => true
  | .null => true
  | _ => false

/-- A child list containing an invalid entry never validates. -/
theorem from_generic_list_error {c : GValue} {cs : List GValue} (hc : c ∈ cs)
    (he : (from_generic c).isOk = false) :
    (from_generic_list cs).isOk = false := by
  induction cs with
  | nil => cases hc
  | cons hd tl ih =>
    rw [from_generic_list]
    cases hc with
    | head =>
      split
      · rename_i p hp
        rw [hp] at he
        simp [Except.isOk, Except.toBool] at he
      · rfl
    | tail _ h2 =>
      split
      · split
        · rename_i ps hps
          have := ih h2
          rw [hps] at this
          simp [Except.isOk, Except.toBool] at this
        · rfl
      · rfl

/-- C4: Validation failure — the bridge validator fails (its result is not
ok) on a non-mapping input, on a mapping missing any of the keys name, age
or children, on a mapping where one of those keys has the wrong base type:
a non-string name, a non-integer age, or a children value that is not a
sequence (in particular a scalar one), and on a mapping some of whose
children entries is itself invalid. -/
theorem claim_C4 :
    (∀ v, isMapping v = false → (from_generic v).isOk = false) ∧
    (∀ kvs, glookup "children" kvs = none → (from_generic (.map kvs)).isOk = false) ∧
    (∀ kvs v, glookup "children" kvs = some v → isScalar v = true →
      (from_generic (.map kvs)).isOk = false) ∧
    (∀ kvs v, glookup "children" kvs = some v → isSeq v = false →
      (from_generic (.map kvs)).isOk = false) ∧
    (∀ kvs, glookup "name" kvs = none → (from_generic (.map kvs)).isOk = false) ∧
    (∀ kvs v, glookup "name" kvs = some v → isStr v = false →
      (from_generic (.map kvs)).isOk = false) ∧
    (∀ kvs, glookup "age" kvs = none → (from_generic (.map kvs)).isOk = false) ∧
    (∀ kvs v, glookup "age" kvs = some v → isInt v = false →
      (from_generic (.map kvs)).isOk = false) ∧
    (∀ kvs cs c, glookup "children" kvs = some (.arr cs) → c ∈ cs →
      (from_generic c).isOk = false → (from_generic (.map kvs)).isOk = false) := by
  refine ⟨?_, ?_, ?_, ?_, ?_, ?_, ?_, ?_, ?_⟩
  · intro v h
    cases v <;> simp [isMapping] at h ⊢ <;>
      simp [from_generic, Except.isOk, Except.toBool]
  · intro kvs h
    rw [from_generic]
    split
    · split
      · split
        · rename_i heq
          rw [h] at heq
          cases heq
        · rfl
      · rfl
    · rfl
  · intro kvs v hv hs
    rw [from_generic]
    split
    · split
      · split
        · rename_i heq
          rw [hv] at heq
          cases heq
          simp [isScalar] at hs
        · rfl
      · rfl
    · rfl
  · intro kvs v hv hs
    rw [from_generic]
    split
    · split
      · split
        · rename_i heq
          rw [hv] at heq
          cases heq
          simp [isSeq] at hs
        · rfl
      · rfl
    · rfl
  · intro kvs h
    rw [from_generic]
    split
    · rename_i heq
      rw [h] at heq
      cases heq
    · rfl
  · intro kvs v hv hs
    rw [from_generic]
    split
    · rename_i heq
      rw [hv] at heq
      cases heq
      simp [isStr] at hs
    · rfl
  · intro kvs h
    rw [from_generic]
    split
    · split
      · rename_i heq
        rw [h] at heq
        cases heq
      · rfl
    · rfl
  · intro kvs v hv hs
    rw [from_generic]
    split
    · split
      · rename_i heq
        rw [hv] at heq
        cases heq
        simp [isInt] at hs
      · rfl
    · rfl
  · intro kvs cs c hc hm he
    rw [from_generic]
    split
    · split
      · split
        · rename_i heq
          rw [hc] at heq
          cases heq
          split
          · rename_i kids hkids
            have := from_generic_list_error hm he
            rw [hkids] at this
            simp [Except.isOk, Except.toBool] at this
          · rfl
        · rfl
      · rfl
    · rfl

/-- Witness for C4 at concrete failing inputs, one per failure mode,
including a scalar children value and a mapping-valued children value. -/
theorem claim_C4_witness :
    (from_generic (.int 7)).isOk = false ∧
    (from_generic (.map [("name", .str "x"), ("age", .int 1)])).isOk = false ∧
    (from_generic (.map [("name", .str "x"), ("age", .int 1),
      ("children", .int 5)])).isOk = false ∧
    (from_generic (.map [("name", .str "x"), ("age", .int 1),
      ("children", .map [])])).isOk = false ∧
    (from_generic (.map [("age", .int 1), ("children", .arr [])])).isOk = false ∧
    (from_generic (.map [("name", .int 3), ("age", .int 1),
      ("children", .arr [])])).isOk = false ∧
    (from_generic (.map [("name", .str "x"), ("children", .arr [])])).isOk = false ∧
    (from_generic (.map [("name", .str "x"), ("age", .str "old"),
      ("children", .arr [])])).isOk = false ∧
    (from_generic (.map [("name", .str "x"), ("age", .int 1),
      ("children", .arr [.int 0])])).isOk = false :=
  ⟨claim_C4.1 (.int 7) rfl,
   claim_C4.2.1 [("name", .str "x"), ("age", .int 1)] rfl,
   claim_C4.2.2.1 [("name", .str "x"), ("age", .int 1), ("children", .int 5)]
     (.int 5) rfl rfl,
   claim_C4.2.2.2.1 [("name", .str "x"), ("age", .int 1), ("children", .map [])]
     (.map []) rfl rfl,
   claim_C4.2.2.2.2.1 [("age", .int 1), ("children", .arr [])] rfl,
   claim_C4.2.2.2.2.2.1 [("name", .int 3), ("age", .int 1), ("children", .arr [])]
     (.int 3) rfl rfl,
   claim_C4.2.2.2.2.2.2.1 [("name", .str "x"), ("children", .arr [])] rfl,
   claim_C4.2.2.2.2.2.2.2.1 [("name", .str "x"), ("age", .str "old"),
     ("children", .arr [])] (.str "old") rfl rfl,
   claim_C4.2.2.2.2.2.2.2.2 [("name", .str "x"), ("age", .int 1),
     ("children", .arr [.int 0])] [.int 0] (.int 0) rfl (by simp)
     (claim_C4.1 (.int 0) rfl)⟩

/-- The dump access of main reaches the serialized child list: on any
wrapped model, dump["sub"]["person"]["children"][0] is the head of the
serialized children sequence. -/
theorem dumpFirstChild_model_dump (m : MyModel) :
    dumpFirstChild m.model_dump = (to_generic_list m.sub.person.children).get? 0 := by
  obtain ⟨⟨p⟩⟩ := m
  cases p with
  | mk n a c =>
    simp [dumpFirstChild, MyModel.model_dump, MySubModel.model_dump, to_generic,
      getKey, getIdx, glookup, Option.bind, Person.children]

/-- C7: Concrete scenario — the generated tree at depth 3 with branching 2
has at most 15 nodes; after the root's age is reassigned to 10, the full
dump, encode, decode, validate pipeline reproduces the mutated record, so
the reconstructed root has age 10 and exactly the pre-mutation children. -/
theorem claim_C7 (rand : Nat → Nat) (ctr : Nat) :
    nodeCount (create_nested_person rand 3 2 ctr).1 ≤ 15 ∧
    Option.map MyModel.validate (ormsgpack.unpackb (ormsgpack.packb
        (MyModel.mk (MySubModel.mk
          ((create_nested_person rand 3 2 ctr).1.setAge 10))).model_dump))
      = some (.ok (MyModel.mk (MySubModel.mk
          ((create_nested_person rand 3 2 ctr).1.setAge 10)))) ∧
    ((create_nested_person rand 3 2 ctr).1.setAge 10).age = 10 ∧
    ((create_nested_person rand 3 2 ctr).1.setAge 10).children
      = (create_nested_person rand 3 2 ctr).1.children := by
  refine ⟨?_, ?_, rfl, rfl⟩
  · have h := nodeCount_create_le rand 3 2 ctr
    have hg : geomSum 2 3 = 15 := rfl
    omega
  · rw [unpackb_packb]
    simp [validate_model_dump]

/-- C10: The subscript accesses dump["sub"]["person"]["children"][0] and
parsed.sub.person.children[0] performed by main are in bounds exactly when
the generated root has at least one child; under that precondition both
accesses succeed, and a root without children makes the dump access go out
of range. -/
theorem claim_C10 (rand : Nat → Nat) (ctr : Nat)
    (h : (create_nested_person rand 3 2 ctr).1.children ≠ []) :
    (dumpFirstChild (MyModel.mk (MySubModel.mk
        ((create_nested_person rand 3 2 ctr).1.setAge 10))).model_dump).isSome = true ∧
    (∀ m', Option.map MyModel.validate (ormsgpack.unpackb (ormsgpack.packb
        (MyModel.mk (MySubModel.mk
          ((create_nested_person rand 3 2 ctr).1.setAge 10))).model_dump))
        = some (.ok m') → (m'.sub.person.children.get? 0).isSome = true) ∧
    (∀ rand2 ctr2, (create_nested_person rand2 3 2 ctr2).1.children = [] →
      dumpFirstChild (MyModel.mk (MySubModel.mk
        ((create_nested_person rand2 3 2 ctr2).1.setAge 10))).model_dump = none) := by
  refine ⟨?_, ?_, ?_⟩
  · rw [dumpFirstChild_model_dump]
    show ((to_generic_list ((create_nested_person rand 3 2 ctr).1.children)).get? 0).isSome
      = true
    rw [to_generic_list_get0_isSome]
    cases hch : (create_nested_person rand 3 2 ctr).1.children with
    | nil => exact absurd hch h
    | cons hd tl => rfl
  · intro m' hm'
    rw [unpackb_packb] at hm'
    simp [validate_model_dump] at hm'
    subst hm'
    show (((create_nested_person rand 3 2 ctr).1.children).get? 0).isSome = true
    cases hch : (create_nested_person rand 3 2 ctr).1.children with
    | nil => exact absurd hch h
    | cons hd tl => rfl
  · intro rand2 ctr2 h2
    rw [dumpFirstChild_model_dump]
    show (to_generic_list ((create_nested_person rand2 3 2 ctr2).1.children)).get? 0 = none
    rw [h2]
    rfl

/-- Witness for C10 at concrete randomness sources: one whose generated
root has one child (both accesses succeed) and one whose generated root
has none (the dump access goes out of range). -/
theorem claim_C10_witness :
    (create_nested_person (fun _ => 1) 3 2 0).1.children ≠ [] ∧
    (dumpFirstChild (MyModel.mk (MySubModel.mk
        ((create_nested_person (fun _ => 1) 3 2 0).1.setAge 10))).model_dump).isSome = true ∧
    ((MyModel.mk (MySubModel.mk
        ((create_nested_person (fun _ => 1) 3 2 0).1.setAge 10))).sub.person.children.get?
        0).isSome = true ∧
    dumpFirstChild (MyModel.mk (MySubModel.mk
        ((create_nested_person (fun _ => 0) 3 2 0).1.setAge 10))).model_dump = none := by
  have hne : (create_nested_person (fun _ => 1) 3 2 0).1.children ≠ [] := by
    intro hc
    have hlen : (create_nested_person (fun _ => 1) 3 2 0).1.children.length = 1 := rfl
    rw [hc] at hlen
    simp at hlen
  have hmain := claim_C10 (fun _ => 1) 0 hne
  refine ⟨hne, hmain.1, ?_, hmain.2.2 (fun _ => 0) 0 rfl⟩
  refine hmain.2.1 _ ?_
  rw [unpackb_packb]
  simp [validate_model_dump]
